import Mathlib

/-!
Shallow embedding of the `bytebufrs` ring buffer (`src/lib.rs`).

The Rust `RingBuf` owns a boxed byte slice `data` and two cursors
`read_pos`, `write_pos`.  We model the byte region as a `List Nat`
(byte values are never computed with, only moved) and every `&mut self`
method as a function returning the updated `RingBuf` together with its
result.  Fallible methods return `Except RBError`, mirroring
`std::io::Result` with the single `ErrorKind::InvalidInput` that the
source can produce.  Slice copies (`copy_from_slice`) are modelled by
`copy_into`, which overwrites `dst[start .. start + src.length]` with
`src` — exactly the effect of the Rust call whenever it does not panic.
-/

deriving instance DecidableEq for Except

/-- Mirror of the only `ErrorKind` the source constructs
(`ErrorKind::InvalidInput` in `advance_read_pos`). -/
inductive RBError where
  | invalidInput
deriving Repr, DecidableEq

/-- The ring buffer: backing region and the two cursors
(`struct RingBuf` in the source). -/
structure RingBuf where
  data : List Nat
  read_pos : Nat
  write_pos : Nat
deriving Repr, DecidableEq

namespace RingBuf

/-- Model of `RingBuf::with_capacity`: zero-filled region of length `capacity + 1`,
both cursors at 0. -/
def with_capacity (capacity : Nat) : RingBuf :=
  ⟨List.replicate (capacity + 1) 0, 0, 0⟩

/-- Model of `RingBuf::capacity`: `self.data.len() - 1`. -/
def capacity (rb : RingBuf) : Nat :=
  rb.data.length - 1

/-- Model of `RingBuf::clear`: resets both cursors to 0, leaving `data` alone. -/
def clear (rb : RingBuf) : RingBuf :=
  { rb with read_pos := 0, write_pos := 0 }

/-- Model of `RingBuf::len`: wrapped case when `read_pos > write_pos`. -/
def len (rb : RingBuf) : Nat :=
  if rb.read_pos > rb.write_pos then
    rb.data.length - rb.read_pos + rb.write_pos
  else
    rb.write_pos - rb.read_pos

/-- Model of `RingBuf::is_empty`: cursor equality. -/
def is_empty (rb : RingBuf) : Bool :=
  rb.read_pos == rb.write_pos

/-- Model of `RingBuf::advance_read_pos`: fails with `InvalidInput` when
`count > len()`; otherwise adds `count` to `read_pos`, subtracting
`data.len()` once if the sum runs past the end.  Returned pair is
(result, state after the call); on the error path the state is the
receiver untouched, as in the source (the early `return Err` precedes
any mutation). -/
def advance_read_pos (rb : RingBuf) (count : Nat) : Except RBError Unit × RingBuf :=
  if count > rb.len then
    (.error .invalidInput, rb)
  else
    let rp := rb.read_pos + count
    let rp := if rp ≥ rb.data.length then rp - rb.data.length else rp
    (.ok (), { rb with read_pos := rp })

/-- Model of `dst[start .. start + src.len()].copy_from_slice(src)`:
overwrite the slice of `dst` beginning at `start` with `src`. -/
def copy_into (dst : List Nat) (start : Nat) (src : List Nat) : List Nat :=
  dst.take start ++ src ++ dst.drop (start + src.length)

/-- Model of `RingBuf::peek`: copies `min(len(), buf.len())` bytes starting at
`read_pos` into the front of `buf`, splitting into a tail run and a
head run when the data wraps; always returns `Ok`.  Result is the
updated destination slice together with the count. -/
def peek (rb : RingBuf) (buf : List Nat) : Except RBError (List Nat × Nat) :=
  let to_read := min rb.len buf.length
  let bytes_until_end := rb.data.length - rb.read_pos
  if bytes_until_end ≤ to_read then
    let buf1 := copy_into buf 0 (rb.data.drop rb.read_pos)
    let buf2 := copy_into buf1 bytes_until_end (rb.data.take (to_read - bytes_until_end))
    .ok (buf2, to_read)
  else
    .ok (copy_into buf 0 ((rb.data.drop rb.read_pos).take to_read), to_read)

/-- Model of `impl From<Box<[u8]>> for RingBuf`: the slice becomes the backing
region directly, cursors at 0. -/
def fromSlice (s : List Nat) : RingBuf :=
  ⟨s, 0, 0⟩

/-- Model of `impl From<Vec<u8>> for RingBuf`: pushes one sentinel byte 0, then
`write_pos` is the original length, `read_pos = 0`. -/
def fromVec (s : List Nat) : RingBuf :=
  ⟨s ++ [0], 0, s.length⟩

/-- Model of `Read::read for RingBuf`: `peek` then `advance_read_pos` by the
peeked count, propagating errors as `?` does.  Returns
(result, state after, destination after). -/
def read (rb : RingBuf) (buf : List Nat) : Except RBError Nat × RingBuf × List Nat :=
  match rb.peek buf with
  | .error e => (.error e, rb, buf)
  | .ok (buf1, bytes_read) =>
    match rb.advance_read_pos bytes_read with
    | (.error e, rb1) => (.error e, rb1, buf1)
    | (.ok _, rb1) => (.ok bytes_read, rb1, buf1)

/-- Model of `Write::write for RingBuf`: copies
`min(capacity() - len(), buf.len())` bytes from the front of `buf` into
the region starting at `write_pos`, wrapping symmetrically to `peek`,
and advances `write_pos`; always succeeds with the copied count. -/
def write (rb : RingBuf) (buf : List Nat) : RingBuf × Nat :=
  let to_write := min (rb.capacity - rb.len) buf.length
  let bytes_until_end := rb.data.length - rb.write_pos
  if bytes_until_end ≤ to_write then
    let data1 := copy_into rb.data rb.write_pos (buf.take bytes_until_end)
    let data2 := copy_into data1 0 ((buf.drop bytes_until_end).take (to_write - bytes_until_end))
    ({ rb with data := data2, write_pos := to_write - bytes_until_end }, to_write)
  else
    ({ rb with data := copy_into rb.data rb.write_pos (buf.take to_write),
               write_pos := rb.write_pos + to_write }, to_write)

/-- Model of `Write::flush for RingBuf`: a no-op that returns `Ok(())`. -/
def flush (rb : RingBuf) : Except RBError Unit × RingBuf :=
  (.ok (), rb)

/-- The cursor invariant of the source's `check_valid!` debug macro:
both cursors strictly inside the backing region. -/
def Valid (rb : RingBuf) : Prop :=
  rb.read_pos < rb.data.length ∧ rb.write_pos < rb.data.length

instance (rb : RingBuf) : Decidable rb.Valid := by
  unfold Valid; infer_instance

/-- The byte sequence logically stored in the buffer, front first:
from `read_pos` up to `write_pos`, going around the end of the region
when the content wraps.  This is the abstraction the correctness
statements are phrased in. -/
def contents (rb : RingBuf) : List Nat :=
  if rb.read_pos ≤ rb.write_pos then
    (rb.data.drop rb.read_pos).take (rb.write_pos - rb.read_pos)
  else
    rb.data.drop rb.read_pos ++ rb.data.take rb.write_pos

/-- States reachable from the public constructors by any sequence of
public operations (the fixed-region constructor restricted to regions
of length ≥ 1, as the spec requires of callers). -/
inductive Reachable : RingBuf → Prop where
  | with_capacity (c : Nat) : Reachable (RingBuf.with_capacity c)
  | fromVec (v : List Nat) : Reachable (fromVec v)
  | fromSlice (s : List Nat) (h : 1 ≤ s.length) : Reachable (fromSlice s)
  | clear (rb : RingBuf) : Reachable rb → Reachable rb.clear
  | advance (rb : RingBuf) (count : Nat) :
      Reachable rb → Reachable (rb.advance_read_pos count).2
  | read (rb : RingBuf) (buf : List Nat) :
      Reachable rb → Reachable (rb.read buf).2.1
  | write (rb : RingBuf) (buf : List Nat) :
      Reachable rb → Reachable (rb.write buf).1
  | flush (rb : RingBuf) : Reachable rb → Reachable rb.flush.2

end RingBuf

namespace RingBuf

theorem len_of_le (rb : RingBuf) (h : rb.read_pos ≤ rb.write_pos) :
    rb.len = rb.write_pos - rb.read_pos := by
  unfold len
  rw [if_neg (by omega)]

theorem len_of_gt (rb : RingBuf) (h : rb.write_pos < rb.read_pos) :
    rb.len = rb.data.length - rb.read_pos + rb.write_pos := by
  unfold len
  rw [if_pos (by omega)]

theorem contents_of_le (rb : RingBuf) (h : rb.read_pos ≤ rb.write_pos) :
    rb.contents = (rb.data.drop rb.read_pos).take (rb.write_pos - rb.read_pos) := by
  unfold contents
  rw [if_pos h]

theorem contents_of_gt (rb : RingBuf) (h : rb.write_pos < rb.read_pos) :
    rb.contents = rb.data.drop rb.read_pos ++ rb.data.take rb.write_pos := by
  unfold contents
  rw [if_neg (by omega)]

theorem len_le_capacity (rb : RingBuf) (hv : rb.Valid) : rb.len ≤ rb.capacity := by
  obtain ⟨hr, hw⟩ := hv
  unfold len capacity
  split <;> omega

theorem len_lt_length (rb : RingBuf) (hv : rb.Valid) : rb.len < rb.data.length := by
  obtain ⟨hr, hw⟩ := hv
  unfold len
  split <;> omega

theorem len_eq_zero_iff (rb : RingBuf) (hv : rb.Valid) :
    rb.len = 0 ↔ rb.read_pos = rb.write_pos := by
  obtain ⟨hr, hw⟩ := hv
  unfold len
  split <;> omega

theorem contents_length (rb : RingBuf) (hv : rb.Valid) :
    rb.contents.length = rb.len := by
  obtain ⟨hr, hw⟩ := hv
  unfold contents len
  split <;> split <;>
    simp only [List.length_take, List.length_drop, List.length_append] <;> omega

theorem take_append_ge (l₁ l₂ : List Nat) (k : Nat) (h : l₁.length ≤ k) :
    (l₁ ++ l₂).take k = l₁ ++ l₂.take (k - l₁.length) := by
  rw [List.take_append_eq_append_take, List.take_of_length_le h]

theorem drop_append_ge (l₁ l₂ : List Nat) (k : Nat) (h : l₁.length ≤ k) :
    (l₁ ++ l₂).drop k = l₂.drop (k - l₁.length) := by
  rw [List.drop_append_eq_append_drop, List.drop_of_length_le h, List.nil_append]

end RingBuf

namespace RingBuf

theorem peek_spec (rb : RingBuf) (buf : List Nat) (hv : rb.Valid) :
    rb.peek buf =
      .ok (rb.contents.take (min rb.len buf.length) ++ buf.drop (min rb.len buf.length),
        min rb.len buf.length) := by
  obtain ⟨hr, hw⟩ := hv
  simp only [peek]
  generalize hgen : min rb.len buf.length = k
  have hk1 : k ≤ rb.len := hgen ▸ Nat.min_le_left ..
  have hk2 : k ≤ buf.length := hgen ▸ Nat.min_le_right ..
  by_cases hB : rb.data.length - rb.read_pos ≤ k
  · rw [if_pos hB]
    have hA : rb.write_pos < rb.read_pos := by
      by_contra hA
      push_neg at hA
      have := len_of_le rb hA
      omega
    have hlen := len_of_gt rb hA
    rw [contents_of_gt rb hA]
    simp only [copy_into, List.take_zero, List.nil_append, Nat.zero_add, List.length_take,
      List.length_drop]
    have hmin : min (k - (rb.data.length - rb.read_pos)) rb.data.length
        = k - (rb.data.length - rb.read_pos) := by omega
    rw [hmin]
    have e2 : rb.data.length - rb.read_pos + (k - (rb.data.length - rb.read_pos)) = k := by
      omega
    rw [e2]
    have e1 : (rb.data.drop rb.read_pos ++ buf.drop (rb.data.length - rb.read_pos)).take
        (rb.data.length - rb.read_pos) = rb.data.drop rb.read_pos :=
      List.take_left' (by rw [List.length_drop])
    rw [e1]
    have e3 : (rb.data.drop rb.read_pos ++ buf.drop (rb.data.length - rb.read_pos)).drop k
        = buf.drop k := by
      rw [drop_append_ge _ _ _ (by rw [List.length_drop]; omega), List.length_drop,
        List.drop_drop]
      congr 1
    rw [e3]
    have e4 : (rb.data.drop rb.read_pos ++ rb.data.take rb.write_pos).take k
        = rb.data.drop rb.read_pos
          ++ rb.data.take (k - (rb.data.length - rb.read_pos)) := by
      rw [take_append_ge _ _ _ (by rw [List.length_drop]; omega), List.length_drop,
        List.take_take]
      have : min (k - (rb.data.length - rb.read_pos)) rb.write_pos
          = k - (rb.data.length - rb.read_pos) := by omega
      rw [this]
    rw [e4]
  · rw [if_neg hB]
    simp only [copy_into, List.take_zero, List.nil_append, Nat.zero_add, List.length_take,
      List.length_drop]
    have hmin : min k (rb.data.length - rb.read_pos) = k := by omega
    rw [hmin]
    rcases le_or_lt rb.read_pos rb.write_pos with hA | hA
    · have hlen := len_of_le rb hA
      rw [contents_of_le rb hA, List.take_take]
      have : min k (rb.write_pos - rb.read_pos) = k := by omega
      rw [this]
    · rw [contents_of_gt rb hA,
        List.take_append_of_le_length (by rw [List.length_drop]; omega)]

end RingBuf

namespace RingBuf

theorem advance_err (rb : RingBuf) (count : Nat) (hc : rb.len < count) :
    rb.advance_read_pos count = (.error .invalidInput, rb) := by
  simp only [advance_read_pos]
  rw [if_pos (by omega)]

theorem advance_ok (rb : RingBuf) (count : Nat) (hv : rb.Valid) (hc : count ≤ rb.len) :
    rb.advance_read_pos count =
      (.ok (), { rb with read_pos := (rb.read_pos + count) % rb.data.length }) := by
  obtain ⟨hr, hw⟩ := hv
  have hlt : rb.len < rb.data.length := len_lt_length rb ⟨hr, hw⟩
  simp only [advance_read_pos]
  rw [if_neg (by omega)]
  have hsel : (if rb.read_pos + count ≥ rb.data.length
      then rb.read_pos + count - rb.data.length
      else rb.read_pos + count) = (rb.read_pos + count) % rb.data.length := by
    rcases Nat.lt_or_ge (rb.read_pos + count) rb.data.length with h | h
    · rw [if_neg (by omega), Nat.mod_eq_of_lt h]
    · rw [if_pos (by omega), Nat.mod_eq_sub_mod h, Nat.mod_eq_of_lt (by omega)]
  rw [hsel]

theorem advance_result_valid (rb : RingBuf) (count : Nat) (hv : rb.Valid)
    (hc : count ≤ rb.len) : ((rb.advance_read_pos count).2).Valid := by
  obtain ⟨hr, hw⟩ := hv
  rw [advance_ok rb count ⟨hr, hw⟩ hc]
  exact ⟨Nat.mod_lt _ (by omega), hw⟩

theorem advance_contents (rb : RingBuf) (count : Nat) (hv : rb.Valid) (hc : count ≤ rb.len) :
    ({ rb with read_pos := (rb.read_pos + count) % rb.data.length } : RingBuf).contents
      = rb.contents.drop count := by
  obtain ⟨hr, hw⟩ := hv
  rcases le_or_lt rb.read_pos rb.write_pos with hA | hA
  · have hlen := len_of_le rb hA
    have hmod : (rb.read_pos + count) % rb.data.length = rb.read_pos + count :=
      Nat.mod_eq_of_lt (by omega)
    simp only [contents, hmod]
    rw [if_pos (show rb.read_pos + count ≤ rb.write_pos by omega), if_pos hA,
      List.drop_take, List.drop_drop]
    congr 1
    omega
  · have hlen := len_of_gt rb hA
    rcases Nat.lt_or_ge (rb.read_pos + count) rb.data.length with hlt | hge
    · have hmod := Nat.mod_eq_of_lt hlt
      simp only [contents, hmod]
      rw [if_neg (by omega), if_neg (by omega),
        List.drop_append_of_le_length (by rw [List.length_drop]; omega), List.drop_drop]
    · have hmod : (rb.read_pos + count) % rb.data.length
          = rb.read_pos + count - rb.data.length := by
        rw [Nat.mod_eq_sub_mod hge]
        exact Nat.mod_eq_of_lt (by omega)
      simp only [contents, hmod]
      rw [if_pos (by omega), if_neg (by omega),
        drop_append_ge _ _ _ (by rw [List.length_drop]; omega), List.length_drop,
        List.drop_take]
      congr 2 <;> omega

end RingBuf

namespace RingBuf

theorem contents_mk_le (d : List Nat) (r w : Nat) (h : r ≤ w) :
    (RingBuf.mk d r w).contents = (d.drop r).take (w - r) :=
  contents_of_le _ h

theorem contents_mk_gt (d : List Nat) (r w : Nat) (h : w < r) :
    (RingBuf.mk d r w).contents = d.drop r ++ d.take w :=
  contents_of_gt _ h

theorem write_spec (rb : RingBuf) (src : List Nat) (hv : rb.Valid) :
    (rb.write src).2 = min (rb.capacity - rb.len) src.length ∧
    (rb.write src).1.read_pos = rb.read_pos ∧
    (rb.write src).1.data.length = rb.data.length ∧
    (rb.write src).1.write_pos
      = (rb.write_pos + min (rb.capacity - rb.len) src.length) % rb.data.length ∧
    (rb.write src).1.contents
      = rb.contents ++ src.take (min (rb.capacity - rb.len) src.length) := by
  obtain ⟨hr, hw⟩ := hv
  have hcap : rb.capacity = rb.data.length - 1 := rfl
  simp only [write]
  generalize hgen : min (rb.capacity - rb.len) src.length = t
  have ht1 : t ≤ rb.capacity - rb.len := hgen ▸ Nat.min_le_left ..
  have ht2 : t ≤ src.length := hgen ▸ Nat.min_le_right ..
  have hs1 : (src.take t).length = t := by rw [List.length_take]; omega
  by_cases hB : rb.data.length - rb.write_pos ≤ t
  · rw [if_pos hB]
    have hA : rb.read_pos ≤ rb.write_pos := by
      by_contra hA
      push_neg at hA
      have := len_of_gt rb hA
      omega
    have hlen := len_of_le rb hA
    have hs2 : (src.take (rb.data.length - rb.write_pos)).length
        = rb.data.length - rb.write_pos := by
      rw [List.length_take]; omega
    have hs3 : ((src.drop (rb.data.length - rb.write_pos)).take
        (t - (rb.data.length - rb.write_pos))).length
        = t - (rb.data.length - rb.write_pos) := by
      rw [List.length_take, List.length_drop]; omega
    have hdata1 : copy_into rb.data rb.write_pos (src.take (rb.data.length - rb.write_pos))
        = rb.data.take rb.write_pos ++ src.take (rb.data.length - rb.write_pos) := by
      unfold copy_into
      rw [hs2, show rb.write_pos + (rb.data.length - rb.write_pos) = rb.data.length by omega,
        List.drop_length, List.append_nil]
    rw [hdata1]
    have hdata2 : copy_into
        (rb.data.take rb.write_pos ++ src.take (rb.data.length - rb.write_pos)) 0
        ((src.drop (rb.data.length - rb.write_pos)).take (t - (rb.data.length - rb.write_pos)))
        = (src.drop (rb.data.length - rb.write_pos)).take (t - (rb.data.length - rb.write_pos))
          ++ (rb.data.take rb.write_pos
              ++ src.take (rb.data.length - rb.write_pos)).drop
             (t - (rb.data.length - rb.write_pos)) := by
      unfold copy_into
      rw [hs3]
      simp only [List.take_zero, List.nil_append, Nat.zero_add]
    rw [hdata2]
    refine ⟨rfl, rfl, ?_, ?_, ?_⟩
    · simp only [List.length_append, List.length_take, List.length_drop]
      omega
    · show t - (rb.data.length - rb.write_pos) = (rb.write_pos + t) % rb.data.length
      rw [Nat.mod_eq_sub_mod (by omega), Nat.mod_eq_of_lt (by omega)]
      omega
    · rw [contents_mk_gt _ _ _ (by omega), contents_of_le rb hA,
        List.take_left' hs3]
      have hle1 : ((src.drop (rb.data.length - rb.write_pos)).take
          (t - (rb.data.length - rb.write_pos))).length ≤ rb.read_pos := by
        rw [hs3]; omega
      rw [drop_append_ge _ _ _ hle1, hs3, List.drop_drop,
        show t - (rb.data.length - rb.write_pos)
            + (rb.read_pos - (t - (rb.data.length - rb.write_pos))) = rb.read_pos by omega,
        List.drop_append_of_le_length
          (show rb.read_pos ≤ (rb.data.take rb.write_pos).length by
            rw [List.length_take]; omega),
        List.drop_take]
      rw [show src.take t = src.take (rb.data.length - rb.write_pos)
          ++ (src.drop (rb.data.length - rb.write_pos)).take
             (t - (rb.data.length - rb.write_pos)) by
        rw [← List.take_add]
        congr 1
        omega]
      simp [List.append_assoc]
  · rw [if_neg hB]
    have hdata : copy_into rb.data rb.write_pos (src.take t)
        = rb.data.take rb.write_pos ++ src.take t ++ rb.data.drop (rb.write_pos + t) := by
      unfold copy_into
      rw [hs1]
    rw [hdata]
    have hwlen : (rb.data.take rb.write_pos).length = rb.write_pos := by
      rw [List.length_take]; omega
    refine ⟨rfl, rfl, ?_, ?_, ?_⟩
    · simp only [List.length_append, List.length_take, List.length_drop]
      omega
    · show rb.write_pos + t = (rb.write_pos + t) % rb.data.length
      rw [Nat.mod_eq_of_lt (by omega)]
    · rcases le_or_lt rb.read_pos rb.write_pos with hA | hA
      · have hlen := len_of_le rb hA
        rw [contents_mk_le _ _ _ (by omega : rb.read_pos ≤ rb.write_pos + t),
          contents_of_le rb hA,
          List.drop_append_of_le_length
            (show rb.read_pos ≤ (rb.data.take rb.write_pos ++ src.take t).length by
              rw [List.length_append, hwlen, hs1]; omega),
          List.drop_append_of_le_length
            (show rb.read_pos ≤ (rb.data.take rb.write_pos).length by rw [hwlen]; omega)]
        have hfront : ((rb.data.take rb.write_pos).drop rb.read_pos ++ src.take t).length
            = rb.write_pos + t - rb.read_pos := by
          rw [List.length_append, List.length_drop, hwlen, hs1]; omega
        rw [List.take_left' hfront, List.drop_take]
      · have hlen := len_of_gt rb hA
        have hwt : rb.write_pos + t < rb.read_pos := by omega
        rw [contents_mk_gt _ _ _ hwt, contents_of_gt rb hA]
        have hfull : (rb.data.take rb.write_pos ++ src.take t).length
            = rb.write_pos + t := by
          rw [List.length_append, hwlen, hs1]
        rw [List.take_left' hfull]
        have hle2 : (rb.data.take rb.write_pos ++ src.take t).length ≤ rb.read_pos := by
          rw [hfull]; omega
        rw [drop_append_ge _ _ _ hle2, hfull, List.drop_drop,
          show rb.write_pos + t + (rb.read_pos - (rb.write_pos + t)) = rb.read_pos by omega]
        simp [List.append_assoc]

end RingBuf

namespace RingBuf

theorem write_result_valid (rb : RingBuf) (src : List Nat) (hv : rb.Valid) :
    ((rb.write src).1).Valid := by
  obtain hspec := write_spec rb src hv
  constructor
  · rw [hspec.2.1, hspec.2.2.1]
    exact hv.1
  · rw [hspec.2.2.2.1, hspec.2.2.1]
    exact Nat.mod_lt _ (Nat.lt_of_le_of_lt (Nat.zero_le _) hv.1)

theorem write_result_len (rb : RingBuf) (src : List Nat) (hv : rb.Valid) :
    ((rb.write src).1).len = rb.len + min (rb.capacity - rb.len) src.length := by
  obtain hspec := write_spec rb src hv
  have h := contents_length _ (write_result_valid rb src hv)
  rw [hspec.2.2.2.2, List.length_append, contents_length rb hv, List.length_take] at h
  omega

theorem read_spec (rb : RingBuf) (buf : List Nat) (hv : rb.Valid) :
    rb.read buf =
      (.ok (min rb.len buf.length),
       { rb with read_pos := (rb.read_pos + min rb.len buf.length) % rb.data.length },
       rb.contents.take (min rb.len buf.length) ++ buf.drop (min rb.len buf.length)) := by
  simp only [read, peek_spec rb buf hv, advance_ok rb (min rb.len buf.length) hv
    (Nat.min_le_left ..)]

theorem advance_result_valid_any (rb : RingBuf) (count : Nat) (hv : rb.Valid) :
    ((rb.advance_read_pos count).2).Valid := by
  rcases Nat.lt_or_ge rb.len count with h | h
  · rw [advance_err rb count h]
    exact hv
  · exact advance_result_valid rb count hv h

theorem read_result_valid (rb : RingBuf) (buf : List Nat) (hv : rb.Valid) :
    ((rb.read buf).2.1).Valid := by
  rw [read_spec rb buf hv]
  exact ⟨Nat.mod_lt _ (Nat.lt_of_le_of_lt (Nat.zero_le _) hv.1), hv.2⟩

theorem with_capacity_valid (c : Nat) : (RingBuf.with_capacity c).Valid := by
  constructor <;> simp [with_capacity]

theorem fromVec_valid (v : List Nat) : (fromVec v).Valid := by
  constructor <;> simp [fromVec]

theorem fromSlice_valid (s : List Nat) (h : 1 ≤ s.length) : (fromSlice s).Valid := by
  constructor <;> simp [fromSlice] <;> omega

theorem clear_valid (rb : RingBuf) (hv : rb.Valid) : rb.clear.Valid := by
  obtain ⟨hr, hw⟩ := hv
  exact ⟨by simp [clear]; omega, by simp [clear]; omega⟩

theorem reachable_valid (rb : RingBuf) (h : Reachable rb) : rb.Valid := by
  induction h with
  | with_capacity c => exact with_capacity_valid c
  | fromVec v => exact fromVec_valid v
  | fromSlice s hs => exact fromSlice_valid s hs
  | clear rb _ ih => exact clear_valid rb ih
  | advance rb count _ ih => exact advance_result_valid_any rb count ih
  | read rb buf _ ih => exact read_result_valid rb buf ih
  | write rb buf _ ih => exact write_result_valid rb buf ih
  | flush rb _ ih => exact ih

end RingBuf

namespace RingBuf

/-- C1: for every byte sequence `S` with `S.length ≤ capacity`, starting from an
empty `RingBuf`, `write S` returns `S.length`, and a subsequent `read` into a
destination of length `≥ S.length` returns `S.length`, writes exactly the bytes
of `S` in order into the destination prefix, and leaves the buffer empty. -/
theorem claim_C1 (rb : RingBuf) (S dest : List Nat) (hv : rb.Valid)
    (he : rb.is_empty = true) (hS : S.length ≤ rb.capacity) (hd : S.length ≤ dest.length) :
    (rb.write S).2 = S.length ∧
    ((rb.write S).1.read dest).1 = .ok S.length ∧
    (((rb.write S).1.read dest).2.2).take S.length = S ∧
    ((rb.write S).1.read dest).2.1.is_empty = true := by
  obtain ⟨hr, hw⟩ := hv
  have hrw : rb.read_pos = rb.write_pos := by
    simpa [is_empty] using he
  have hlen0 : rb.len = 0 := by
    rw [len_of_le rb (Nat.le_of_eq hrw)]
    omega
  have hcont0 : rb.contents = [] := by
    have h := contents_length rb ⟨hr, hw⟩
    rw [hlen0] at h
    exact List.eq_nil_of_length_eq_zero h
  have hmin : min (rb.capacity - rb.len) S.length = S.length := by omega
  obtain hws := write_spec rb S ⟨hr, hw⟩
  have hv1 := write_result_valid rb S ⟨hr, hw⟩
  have hlen1 : (rb.write S).1.len = S.length := by
    rw [write_result_len rb S ⟨hr, hw⟩, hmin]
    omega
  have hcont1 : (rb.write S).1.contents = S := by
    rw [hws.2.2.2.2, hcont0, List.nil_append, hmin, List.take_length]
  have hw2 : (rb.write S).2 = S.length := by rw [hws.1, hmin]
  have hmin2 : min ((rb.write S).1.len) dest.length = S.length := by
    rw [hlen1]; omega
  refine ⟨hw2, ?_, ?_, ?_⟩
  · rw [read_spec _ dest hv1, hmin2]
  · rw [read_spec _ dest hv1]
    dsimp only
    rw [hmin2, hcont1, List.take_length]
    exact List.take_left' rfl
  · rw [read_spec _ dest hv1]
    dsimp only
    rw [hmin2]
    have hv2 : ({ (rb.write S).1 with
        read_pos := ((rb.write S).1.read_pos + S.length) % (rb.write S).1.data.length }
        : RingBuf).Valid :=
      ⟨Nat.mod_lt _ (Nat.lt_of_le_of_lt (Nat.zero_le _) hv1.1), hv1.2⟩
    have hcont2 : ({ (rb.write S).1 with
        read_pos := ((rb.write S).1.read_pos + S.length) % (rb.write S).1.data.length }
        : RingBuf).contents = [] := by
      rw [advance_contents _ S.length hv1 (by omega), hcont1, List.drop_length]
    have hlen2 := contents_length _ hv2
    rw [hcont2] at hlen2
    have hl2 : ({ (rb.write S).1 with
        read_pos := ((rb.write S).1.read_pos + S.length) % (rb.write S).1.data.length }
        : RingBuf).len = 0 := by simpa using hlen2.symm
    have hrw2 := (len_eq_zero_iff _ hv2).mp hl2
    simp only [is_empty, beq_iff_eq]
    exact hrw2

/-- C2: `advance_read_pos count` fails with the invalid-input error iff
`count > len()`, leaving the whole state unchanged on failure; on success it
sets `read_pos := (read_pos + count) % data.length` and touches nothing else;
`advance_read_pos len()` empties the buffer. -/
theorem claim_C2 (rb : RingBuf) (count : Nat) (hv : rb.Valid) :
    ((rb.advance_read_pos count).1 = .error .invalidInput ↔ rb.len < count) ∧
    (rb.len < count → (rb.advance_read_pos count).2 = rb) ∧
    (count ≤ rb.len →
      (rb.advance_read_pos count).2.read_pos = (rb.read_pos + count) % rb.data.length ∧
      (rb.advance_read_pos count).2.write_pos = rb.write_pos ∧
      (rb.advance_read_pos count).2.data = rb.data) ∧
    (rb.advance_read_pos rb.len).2.len = 0 := by
  obtain ⟨hr, hw⟩ := hv
  refine ⟨⟨?_, ?_⟩, ?_, ?_, ?_⟩
  · intro h
    by_contra hc
    push_neg at hc
    rw [advance_ok rb count ⟨hr, hw⟩ hc] at h
    simp at h
  · intro h
    rw [advance_err rb count h]
  · intro h
    rw [advance_err rb count h]
  · intro h
    rw [advance_ok rb count ⟨hr, hw⟩ h]
    exact ⟨rfl, rfl, rfl⟩
  · rw [advance_ok rb rb.len ⟨hr, hw⟩ (Nat.le_refl _)]
    have hv2 : ({ rb with read_pos := (rb.read_pos + rb.len) % rb.data.length }
        : RingBuf).Valid :=
      ⟨Nat.mod_lt _ (by omega), hw⟩
    refine (len_eq_zero_iff _ hv2).mpr ?_
    show (rb.read_pos + rb.len) % rb.data.length = rb.write_pos
    rcases le_or_lt rb.read_pos rb.write_pos with hA | hA
    · rw [len_of_le rb hA, show rb.read_pos + (rb.write_pos - rb.read_pos) = rb.write_pos
        by omega, Nat.mod_eq_of_lt hw]
    · rw [len_of_gt rb hA, show rb.read_pos + (rb.data.length - rb.read_pos + rb.write_pos)
        = rb.data.length + rb.write_pos by omega, Nat.add_mod_left, Nat.mod_eq_of_lt hw]

/-- C3: `peek dest` always succeeds, returning `min len dest.length` together
with `dest` whose prefix of that size has been overwritten by the front bytes
of the buffer in order (wraparound included); the receiver is untouched since
`peek` does not produce a new state. -/
theorem claim_C3 (rb : RingBuf) (dest : List Nat) (hv : rb.Valid) :
    rb.peek dest
      = .ok (rb.contents.take (min rb.len dest.length)
          ++ dest.drop (min rb.len dest.length), min rb.len dest.length) ∧
    (rb.contents.take (min rb.len dest.length)).length = min rb.len dest.length ∧
    (rb.len = 0 ∨ dest.length = 0 → min rb.len dest.length = 0) := by
  refine ⟨peek_spec rb dest hv, ?_, ?_⟩
  · rw [List.length_take, contents_length rb hv]
    omega
  · intro h
    omega

/-- C4: `write src` copies exactly `min (capacity - len) src.length` bytes
(the prefix of `src`) into the buffer, advances `write_pos` by that count
modulo `data.length`, and returns it; overfull input gives a short write of
exactly `capacity - len` bytes and is still a success. -/
theorem claim_C4 (rb : RingBuf) (src : List Nat) (hv : rb.Valid) :
    (rb.write src).2 = min (rb.capacity - rb.len) src.length ∧
    (rb.write src).1.contents
      = rb.contents ++ src.take (min (rb.capacity - rb.len) src.length) ∧
    (rb.write src).1.write_pos = (rb.write_pos + (rb.write src).2) % rb.data.length ∧
    (rb.capacity - rb.len < src.length → (rb.write src).2 = rb.capacity - rb.len) := by
  obtain h := write_spec rb src hv
  refine ⟨h.1, h.2.2.2.2, ?_, ?_⟩
  · rw [h.1]
    exact h.2.2.2.1
  · intro hlt
    rw [h.1]
    omega

/-- C5: every `RingBuf` reachable from the constructors (fixed regions of
length ≥ 1) through public operations satisfies the invariants: both cursors
inside the region, `len ≤ capacity`, and emptiness iff cursor equality. -/
theorem claim_C5 (rb : RingBuf) (h : Reachable rb) :
    rb.read_pos < rb.data.length ∧ rb.write_pos < rb.data.length ∧
    rb.len ≤ rb.capacity ∧ (rb.len = 0 ↔ rb.read_pos = rb.write_pos) := by
  have hv := reachable_valid rb h
  exact ⟨hv.1, hv.2, len_le_capacity rb hv, len_eq_zero_iff rb hv⟩

/-- C6: a `RingBuf` built from a growable sequence of length `N` starts full
with exactly those `N` bytes: `capacity = N`, `len = N`, `read_pos = 0`,
`write_pos = N`, and `peek` into a large-enough destination reproduces the
original bytes in order. -/
theorem claim_C6 (v dest : List Nat) (hd : v.length ≤ dest.length) :
    (fromVec v).capacity = v.length ∧ (fromVec v).len = v.length ∧
    (fromVec v).read_pos = 0 ∧ (fromVec v).write_pos = v.length ∧
    (fromVec v).peek dest = .ok (v ++ dest.drop v.length, v.length) := by
  have hv := fromVec_valid v
  have hlen : (fromVec v).len = v.length := by
    rw [len_of_le _ (Nat.zero_le _)]
    show v.length - 0 = v.length
    omega
  have hcont : (fromVec v).contents = v := by
    rw [contents_of_le _ (Nat.zero_le _)]
    show ((v ++ [0]).drop 0).take (v.length - 0) = v
    rw [List.drop_zero, Nat.sub_zero]
    exact List.take_left' rfl
  refine ⟨?_, hlen, rfl, rfl, ?_⟩
  · show (v ++ [0]).length - 1 = v.length
    rw [List.length_append]
    simp
  · rw [peek_spec _ dest hv, hlen, hcont]
    have hmin : min v.length dest.length = v.length := by omega
    rw [hmin, List.take_length]

/-- C7: `with_capacity c` has `capacity = c` and `len = 0`; capacity 0 is
legal and every write into a valid capacity-0 buffer returns 0. -/
theorem claim_C7 :
    (∀ c : Nat, (RingBuf.with_capacity c).capacity = c ∧ (RingBuf.with_capacity c).len = 0) ∧
    (∀ (rb : RingBuf) (src : List Nat), rb.Valid → rb.capacity = 0 →
      (rb.write src).2 = 0) := by
  constructor
  · intro c
    constructor
    · show (List.replicate (c + 1) 0).length - 1 = c
      rw [List.length_replicate]
      omega
    · rfl
  · intro rb src hvv hcap0
    obtain h := write_spec rb src hvv
    rw [h.1]
    have := len_le_capacity rb hvv
    omega

/-- C8: a `RingBuf` built from a fixed region of length `N ≥ 1` has
`capacity = N - 1` and starts empty with both cursors at 0.  (The `N = 0`
case is a defect of the source — a `usize` underflow — not a defined
result, so only the guarded case is stated.) -/
theorem claim_C8 (s : List Nat) (h : 1 ≤ s.length) :
    (fromSlice s).capacity = s.length - 1 ∧ (fromSlice s).read_pos = 0 ∧
    (fromSlice s).write_pos = 0 ∧ (fromSlice s).len = 0 ∧
    (fromSlice s).is_empty = true :=
  ⟨rfl, rfl, rfl, rfl, rfl⟩

/-- C9: `clear` resets both cursors to 0, so the buffer reports empty, and
it leaves every byte of the backing region untouched. -/
theorem claim_C9 (rb : RingBuf) :
    rb.clear.read_pos = 0 ∧ rb.clear.write_pos = 0 ∧ rb.clear.len = 0 ∧
    rb.clear.is_empty = true ∧ rb.clear.data = rb.data :=
  ⟨rfl, rfl, rfl, rfl, rfl⟩

/-- C10: a successful `write` never clobbers unread data: the readable
sequence afterwards is the readable sequence before followed by the written
prefix of `src`, and `read_pos` is untouched. -/
theorem claim_C10 (rb : RingBuf) (src : List Nat) (hv : rb.Valid) :
    (rb.write src).1.read_pos = rb.read_pos ∧
    (rb.write src).1.contents = rb.contents ++ src.take ((rb.write src).2) := by
  obtain h := write_spec rb src hv
  exact ⟨h.2.1, by rw [h.1]; exact h.2.2.2.2⟩

end RingBuf

namespace RingBuf

/-- Witness for C1 at a concrete instance: capacity-3 empty buffer,
`S = [1, 2]`, destination of length 3. -/
theorem claim_C1_witness :
    ((RingBuf.with_capacity 3).write [1, 2]).2 = [1, 2].length ∧
    (((RingBuf.with_capacity 3).write [1, 2]).1.read [0, 0, 0]).1 = .ok [1, 2].length ∧
    ((((RingBuf.with_capacity 3).write [1, 2]).1.read [0, 0, 0]).2.2).take [1, 2].length
      = [1, 2] ∧
    (((RingBuf.with_capacity 3).write [1, 2]).1.read [0, 0, 0]).2.1.is_empty = true :=
  claim_C1 (RingBuf.with_capacity 3) [1, 2] [0, 0, 0] (by decide) (by decide) (by decide)
    (by decide)

/-- Witness for C2 at a concrete instance: full 3-byte buffer, `count = 2`. -/
theorem claim_C2_witness :
    (((fromVec [1, 2, 3]).advance_read_pos 2).1 = .error .invalidInput
      ↔ (fromVec [1, 2, 3]).len < 2) ∧
    ((fromVec [1, 2, 3]).len < 2 → ((fromVec [1, 2, 3]).advance_read_pos 2).2
      = fromVec [1, 2, 3]) ∧
    (2 ≤ (fromVec [1, 2, 3]).len →
      ((fromVec [1, 2, 3]).advance_read_pos 2).2.read_pos
        = ((fromVec [1, 2, 3]).read_pos + 2) % (fromVec [1, 2, 3]).data.length ∧
      ((fromVec [1, 2, 3]).advance_read_pos 2).2.write_pos = (fromVec [1, 2, 3]).write_pos ∧
      ((fromVec [1, 2, 3]).advance_read_pos 2).2.data = (fromVec [1, 2, 3]).data) ∧
    ((fromVec [1, 2, 3]).advance_read_pos (fromVec [1, 2, 3]).len).2.len = 0 :=
  claim_C2 (fromVec [1, 2, 3]) 2 (by decide)

/-- Witness for C3 at a concrete instance: full 3-byte buffer, destination of
length 2 (a short peek). -/
theorem claim_C3_witness :
    (fromVec [1, 2, 3]).peek [0, 0]
      = .ok ((fromVec [1, 2, 3]).contents.take (min (fromVec [1, 2, 3]).len [0, 0].length)
          ++ [0, 0].drop (min (fromVec [1, 2, 3]).len [0, 0].length),
          min (fromVec [1, 2, 3]).len [0, 0].length) ∧
    ((fromVec [1, 2, 3]).contents.take (min (fromVec [1, 2, 3]).len [0, 0].length)).length
      = min (fromVec [1, 2, 3]).len [0, 0].length ∧
    ((fromVec [1, 2, 3]).len = 0 ∨ [0, 0].length = 0
      → min (fromVec [1, 2, 3]).len [0, 0].length = 0) :=
  claim_C3 (fromVec [1, 2, 3]) [0, 0] (by decide)

/-- Witness for C4 at a concrete instance: full 1-byte buffer, source longer
than the free space (a short write of 0 bytes). -/
theorem claim_C4_witness :
    ((fromVec [9]).write [1, 2, 3]).2
      = min ((fromVec [9]).capacity - (fromVec [9]).len) [1, 2, 3].length ∧
    ((fromVec [9]).write [1, 2, 3]).1.contents
      = (fromVec [9]).contents
        ++ [1, 2, 3].take (min ((fromVec [9]).capacity - (fromVec [9]).len) [1, 2, 3].length) ∧
    ((fromVec [9]).write [1, 2, 3]).1.write_pos
      = ((fromVec [9]).write_pos + ((fromVec [9]).write [1, 2, 3]).2)
        % (fromVec [9]).data.length ∧
    ((fromVec [9]).capacity - (fromVec [9]).len < [1, 2, 3].length
      → ((fromVec [9]).write [1, 2, 3]).2 = (fromVec [9]).capacity - (fromVec [9]).len) :=
  claim_C4 (fromVec [9]) [1, 2, 3] (by decide)

/-- Witness for C5 at a concrete reachable state: `with_capacity 2`. -/
theorem claim_C5_witness :
    (RingBuf.with_capacity 2).read_pos < (RingBuf.with_capacity 2).data.length ∧
    (RingBuf.with_capacity 2).write_pos < (RingBuf.with_capacity 2).data.length ∧
    (RingBuf.with_capacity 2).len ≤ (RingBuf.with_capacity 2).capacity ∧
    ((RingBuf.with_capacity 2).len = 0
      ↔ (RingBuf.with_capacity 2).read_pos = (RingBuf.with_capacity 2).write_pos) :=
  claim_C5 (RingBuf.with_capacity 2) (Reachable.with_capacity 2)

/-- Witness for C6 at a concrete instance: `v = [4, 5]`, destination of
length 3. -/
theorem claim_C6_witness :
    (fromVec [4, 5]).capacity = [4, 5].length ∧ (fromVec [4, 5]).len = [4, 5].length ∧
    (fromVec [4, 5]).read_pos = 0 ∧ (fromVec [4, 5]).write_pos = [4, 5].length ∧
    (fromVec [4, 5]).peek [0, 0, 0] = .ok ([4, 5] ++ [0, 0, 0].drop [4, 5].length,
      [4, 5].length) :=
  claim_C6 [4, 5] [0, 0, 0] (by decide)

/-- Witness for C7 at a concrete instance: the capacity-0 buffer rejects all
bytes of a write. -/
theorem claim_C7_witness :
    (RingBuf.with_capacity 0).capacity = 0 ∧
    ((RingBuf.with_capacity 0).write [7]).2 = 0 :=
  ⟨(claim_C7.1 0).1, claim_C7.2 (RingBuf.with_capacity 0) [7] (by decide) (claim_C7.1 0).1⟩

/-- Witness for C8 at a concrete instance: a fixed region of length 2. -/
theorem claim_C8_witness :
    (fromSlice [1, 2]).capacity = [1, 2].length - 1 ∧ (fromSlice [1, 2]).read_pos = 0 ∧
    (fromSlice [1, 2]).write_pos = 0 ∧ (fromSlice [1, 2]).len = 0 ∧
    (fromSlice [1, 2]).is_empty = true :=
  claim_C8 [1, 2] (by decide)

/-- Witness for C10 at a concrete instance: full 1-byte buffer written with a
2-byte source (nothing fits, nothing is clobbered). -/
theorem claim_C10_witness :
    ((fromVec [1]).write [5, 6]).1.read_pos = (fromVec [1]).read_pos ∧
    ((fromVec [1]).write [5, 6]).1.contents
      = (fromVec [1]).contents ++ [5, 6].take (((fromVec [1]).write [5, 6]).2) :=
  claim_C10 (fromVec [1]) [5, 6] (by decide)

end RingBuf
